import Mathlib

/-!
Verification of the distributed Game of Life implementation
(sequential evaluator, thread-pool evaluator, message codec,
coordinator/master, worker) against its specification.

The Python sources are shallowly embedded:
grids are lists of rows, each row a list of natural-number cell states
(0 = dead, 1 = alive); the message codec operates on lists of byte
values; the coordinator orchestration is a labelled transition system.
-/

set_option maxHeartbeats 1000000

/-- Cell constant DEAD from GameOfLifeSequential. -/
def DEAD : Nat := 0

/-- Cell constant ALIVE from GameOfLifeSequential. -/
def ALIVE : Nat := 1

/-- Row access into a grid; rows out of range give the empty row
(the Python code never indexes out of range). -/
def getRow (g : List (List Nat)) (r : Nat) : List Nat :=
  g.getD r []

/-- Cell access into a grid; cells out of range default to 0. -/
def getCell (g : List (List Nat)) (r c : Nat) : Nat :=
  (getRow g r).getD c 0

/-- Toroidal index wrap, embedding the Python expression
(i + d + n) mod n where d is a neighbour delta in -1, 0, 1.
The sum i + n + d is non-negative for those deltas. -/
def wrapIdx (n i : Nat) (d : Int) : Nat :=
  (((i + n : Nat) : Int) + d).toNat % n

/-- The 3 by 3 block of neighbour deltas iterated by the loops in
GameOfLifeSequential._count_live_neighbors (the centre is skipped
inside the fold, mirroring the continue statement). -/
def deltaList : List (Int × Int) :=
  [(-1, -1), (-1, 0), (-1, 1), (0, -1), (0, 0), (0, 1), (1, -1), (1, 0), (1, 1)]

/-- GameOfLifeSequential._count_live_neighbors: sum of the 8 toroidal
neighbours of cell (r, c) in a grid with the given dimensions. -/
def count_live_neighbors (g : List (List Nat)) (rows cols r c : Nat) : Nat :=
  deltaList.foldl
    (fun acc d =>
      if d.1 = 0 ∧ d.2 = 0 then acc
      else acc + getCell g (wrapIdx rows r d.1) (wrapIdx cols c d.2))
    0

/-- GameOfLifeSequential._apply_rules: Conway next-state rule. -/
def apply_rules (current_state live_neighbors : Nat) : Nat :=
  if current_state = ALIVE then
    if live_neighbors < 2 then DEAD
    else if live_neighbors = 2 ∨ live_neighbors = 3 then ALIVE
    else DEAD
  else
    if live_neighbors = 3 then ALIVE
    else DEAD

/-- GameOfLifeSequential.update: one full synchronous generation on the
toroidal grid, building a fresh grid from the previous one. -/
def seq_update (g : List (List Nat)) (rows cols : Nat) : List (List Nat) :=
  (List.range rows).map fun r =>
    (List.range cols).map fun c =>
      apply_rules (getCell g r c) (count_live_neighbors g rows cols r c)

/-- GameOfLifeDistributed: rows_per_worker = rows // num_workers. -/
def rows_per_worker (rows num_workers : Nat) : Nat := rows / num_workers

/-- Start row of worker i's partition (line start_row = i * rows_per_worker). -/
def start_row (rows num_workers i : Nat) : Nat := i * rows_per_worker rows num_workers

/-- End row (exclusive) of worker i's partition: (i+1) * rows_per_worker,
overridden to rows for the last worker. -/
def end_row (rows num_workers i : Nat) : Nat :=
  if i = num_workers - 1 then rows else (i + 1) * rows_per_worker rows num_workers

/-- The chunk sliced for worker i: grid[start_row:end_row, :]. -/
def chunk_of (g : List (List Nat)) (rows num_workers i : Nat) : List (List Nat) :=
  (g.drop (start_row rows num_workers i)).take
    (end_row rows num_workers i - start_row rows num_workers i)

/-- Top ghost row for worker i: the grid row above the partition, wrapping
to the last grid row when the partition starts at row 0. -/
def top_ghost_row (g : List (List Nat)) (rows num_workers i : Nat) : List Nat :=
  if start_row rows num_workers i = 0 then getRow g (rows - 1)
  else getRow g (start_row rows num_workers i - 1)

/-- Bottom ghost row for worker i: the grid row below the partition, wrapping
to grid row 0 when the partition ends at the last row. -/
def bottom_ghost_row (g : List (List Nat)) (rows num_workers i : Nat) : List Nat :=
  if end_row rows num_workers i = rows then getRow g 0
  else getRow g (end_row rows num_workers i)

/-- GameOfLifeWorker.run, CHUNK branch: build the augmented local grid
[optional top ghost] ++ chunk ++ [optional bottom ghost], then compute the
next state of every chunk cell with the shared rule engine, using the
augmented grid (with its own dimensions) for neighbour counting.
The row offset is 1 exactly when a top ghost row is present. -/
def worker_compute (chunk : List (List Nat)) (top bottom : Option (List Nat))
    (cols : Nat) : List (List Nat) :=
  let rows := chunk.length
  let aug := top.toList ++ chunk ++ bottom.toList
  let augRows := rows + top.toList.length + bottom.toList.length
  (List.range rows).map fun r_chunk =>
    let r_effective := if top.isSome then r_chunk + 1 else r_chunk
    (List.range cols).map fun c =>
      apply_rules (getCell chunk r_chunk c)
        (count_live_neighbors aug augRows cols r_effective c)

/-- GameOfLifeDistributed._distribute_and_collect for one generation,
with every worker computing its chunk via worker_compute: partition the
grid, send each chunk with its two ghost rows, and concatenate the
returned chunks in worker-index order. -/
def distributed_update (g : List (List Nat)) (rows cols num_workers : Nat) :
    List (List Nat) :=
  ((List.range num_workers).map fun i =>
    worker_compute (chunk_of g rows num_workers i)
      (some (top_ghost_row g rows num_workers i))
      (some (bottom_ghost_row g rows num_workers i))
      cols).flatten

/-- GameOfLifeParallelThreads.update: the grid rows are split among
num_threads contiguous ranges (same arithmetic as the distributed
partition, with the last thread taking the remainder); every thread
writes its rows of the fresh grid using the shared rule engine.
The net grid equals the concatenation of the per-thread row blocks. -/
def threads_update (g : List (List Nat)) (rows cols num_threads : Nat) :
    List (List Nat) :=
  let rpt := rows / num_threads
  ((List.range num_threads).map fun i =>
    let s := i * rpt
    let e := if i < num_threads - 1 then (i + 1) * rpt else rows
    (List.range (e - s)).map fun j =>
      (List.range cols).map fun c =>
        apply_rules (getCell g (s + j) c)
          (count_live_neighbors g rows cols (s + j) c)).flatten

/-- Validation performed by GameOfLifeDistributed.__init__ (including the
dimension checks inherited from GameOfLifeSequential.__init__), in source
order.  The constructor touches no socket: the server socket is created
only later, inside run_simulation / _start_server. -/
inductive InitError where
  | invalidDims
  | invalidWorkers
  | tooFewRows
  | rowsLtWorkers
deriving DecidableEq, Repr

/-- GameOfLifeDistributed.__init__ validation; on success returns
rows_per_worker. -/
def distributed_init (rows cols num_workers : Nat) : Except InitError Nat :=
  if ¬ (0 < rows ∧ 0 < cols) then .error .invalidDims
  else if ¬ 0 < num_workers then .error .invalidWorkers
  else if rows / num_workers = 0 then .error .tooFewRows
  else if rows < num_workers then .error .rowsLtWorkers
  else .ok (rows / num_workers)

-- ### Helper lemmas about the wrap and the rule

theorem wrapIdx_neg_one (n i : Nat) : wrapIdx n i (-1) = (i + n - 1) % n := by
  have h : (((i + n : Nat) : Int) + (-1)).toNat = i + n - 1 := by omega
  unfold wrapIdx
  rw [h]

theorem wrapIdx_zero (n i : Nat) : wrapIdx n i 0 = (i + n) % n := by
  have h : (((i + n : Nat) : Int) + 0).toNat = i + n := by omega
  unfold wrapIdx
  rw [h]

theorem wrapIdx_one (n i : Nat) : wrapIdx n i 1 = (i + n + 1) % n := by
  have h : (((i + n : Nat) : Int) + 1).toNat = i + n + 1 := by omega
  unfold wrapIdx
  rw [h]

theorem apply_rules_binary (s n : Nat) : apply_rules s n = 0 ∨ apply_rules s n = 1 := by
  unfold apply_rules ALIVE DEAD
  repeat' split
  all_goals simp

theorem rows_per_worker_pos (rows W : Nat) (h1 : 0 < W) (h2 : W ≤ rows) :
    0 < rows_per_worker rows W :=
  Nat.div_pos h2 h1

theorem rows_per_worker_mul_le (rows W : Nat) :
    rows_per_worker rows W * W ≤ rows :=
  Nat.div_mul_le_self rows W

theorem end_row_le (rows W i : Nat) (hi : i < W) :
    end_row rows W i ≤ rows := by
  unfold end_row
  split
  · exact le_rfl
  · calc (i + 1) * rows_per_worker rows W
        ≤ W * rows_per_worker rows W := Nat.mul_le_mul_right _ (by omega)
      _ = rows_per_worker rows W * W := Nat.mul_comm _ _
      _ ≤ rows := rows_per_worker_mul_le rows W

theorem start_lt_end (rows W i : Nat) (h2 : W ≤ rows) (hi : i < W) :
    start_row rows W i < end_row rows W i := by
  have hrpw : 0 < rows_per_worker rows W :=
    rows_per_worker_pos rows W (by omega) h2
  have hmul : rows_per_worker rows W * W ≤ rows := rows_per_worker_mul_le rows W
  unfold start_row end_row
  split
  · rename_i hlast
    subst hlast
    have hsucc : (W - 1 + 1) * rows_per_worker rows W
        = (W - 1) * rows_per_worker rows W + rows_per_worker rows W :=
      Nat.succ_mul _ _
    have hW' : W - 1 + 1 = W := by omega
    rw [hW'] at hsucc
    have hcm : W * rows_per_worker rows W = rows_per_worker rows W * W :=
      Nat.mul_comm _ _
    omega
  · have hsucc : (i + 1) * rows_per_worker rows W
        = i * rows_per_worker rows W + rows_per_worker rows W :=
      Nat.succ_mul _ _
    omega

theorem end_le_start_of_lt (rows W i j : Nat) (hij : i < j) (hj : j < W) :
    end_row rows W i ≤ start_row rows W j := by
  have hne : i ≠ W - 1 := by omega
  unfold end_row start_row
  rw [if_neg hne]
  exact Nat.mul_le_mul_right _ (by omega)

/-- C4: for every grid of R rows and worker count W with 1 <= W <= R, the
coordinator assigns worker i (i <= W-2) exactly R div W rows starting at
i*(R div W), worker W-1 the remaining R - (W-1)*(R div W) rows; the ranges
are pairwise disjoint, non-empty, stay inside the grid, and cover [0,R). -/
theorem C4_partition (rows W : Nat) (h1 : 1 ≤ W) (h2 : W ≤ rows) :
    (∀ i, i + 1 < W →
      start_row rows W i = i * (rows / W) ∧
      end_row rows W i - start_row rows W i = rows / W) ∧
    (end_row rows W (W - 1) - start_row rows W (W - 1)
      = rows - (W - 1) * (rows / W)) ∧
    (∀ i, i < W → start_row rows W i < end_row rows W i) ∧
    (∀ i j, i < j → j < W → end_row rows W i ≤ start_row rows W j) ∧
    (∀ i, i < W → end_row rows W i ≤ rows) ∧
    (∀ r, r < rows → ∃ i, i < W ∧ start_row rows W i ≤ r ∧ r < end_row rows W i) := by
  have hrpw : 0 < rows_per_worker rows W := rows_per_worker_pos rows W h1 h2
  refine ⟨?_, ?_, ?_, ?_, ?_, ?_⟩
  · intro i hi
    constructor
    · rfl
    · have hne : i ≠ W - 1 := by omega
      unfold end_row start_row rows_per_worker
      rw [if_neg hne, Nat.succ_mul]
      generalize rows / W = q
      omega
  · unfold end_row start_row rows_per_worker
    rw [if_pos rfl]
  · intro i hi
    exact start_lt_end rows W i h2 hi
  · intro i j hij hj
    exact end_le_start_of_lt rows W i j hij hj
  · intro i hi
    exact end_row_le rows W i hi
  · intro r hr
    set rpw := rows_per_worker rows W with hrpwdef
    by_cases hle : r / rpw < W - 1
    · refine ⟨r / rpw, by omega, ?_, ?_⟩
      · unfold start_row
        rw [← hrpwdef]
        exact Nat.div_mul_le_self r rpw
      · unfold end_row
        rw [← hrpwdef, if_neg (by omega)]
        have hdm : rpw * (r / rpw) + r % rpw = r := Nat.div_add_mod r rpw
        have hm : r % rpw < rpw := Nat.mod_lt r hrpw
        have hsucc : (r / rpw + 1) * rpw = r / rpw * rpw + rpw := Nat.succ_mul _ _
        have hcm : rpw * (r / rpw) = r / rpw * rpw := Nat.mul_comm _ _
        omega
    · refine ⟨W - 1, by omega, ?_, ?_⟩
      · unfold start_row
        rw [← hrpwdef]
        calc (W - 1) * rpw ≤ r / rpw * rpw := Nat.mul_le_mul_right _ (by omega)
          _ ≤ r := Nat.div_mul_le_self r rpw
      · unfold end_row
        rw [if_pos rfl]
        exact hr

/-- Witness for C4 at rows = 7, W = 3. -/
theorem C4_partition_witness :
    start_row 7 3 1 ≤ 3 ∧ 3 < end_row 7 3 1 :=
  ((C4_partition 7 3 (by decide) (by decide)).2.2.2.2.2 3 (by decide)).elim
    (fun i h => by
      have h3 : i < 3 := h.1
      interval_cases i <;> simp_all [start_row, end_row, rows_per_worker])

/-- C5: the CHUNK for worker 0 carries a top ghost row equal to grid row
R-1; the CHUNK for worker W-1 carries a bottom ghost row equal to grid
row 0; every other top ghost row is grid row start_row - 1 and every
other bottom ghost row is grid row end_row. -/
theorem C5_ghost_rows (g : List (List Nat)) (rows W : Nat)
    (h1 : 1 ≤ W) (h2 : W ≤ rows) :
    top_ghost_row g rows W 0 = getRow g (rows - 1) ∧
    bottom_ghost_row g rows W (W - 1) = getRow g 0 ∧
    (∀ i, 0 < i → i < W →
      top_ghost_row g rows W i = getRow g (start_row rows W i - 1)) ∧
    (∀ i, i < W - 1 →
      bottom_ghost_row g rows W i = getRow g (end_row rows W i)) := by
  have hrpw : 0 < rows_per_worker rows W := rows_per_worker_pos rows W h1 h2
  have hmul : rows_per_worker rows W * W ≤ rows := rows_per_worker_mul_le rows W
  refine ⟨?_, ?_, ?_, ?_⟩
  · unfold top_ghost_row start_row
    rw [if_pos (Nat.zero_mul _)]
  · unfold bottom_ghost_row end_row
    rw [if_pos (if_pos rfl)]
  · intro i hi0 hiW
    have hpos : 0 < start_row rows W i := by
      unfold start_row
      exact Nat.mul_pos hi0 hrpw
    unfold top_ghost_row
    rw [if_neg (by omega)]
  · intro i hi
    have hlt : end_row rows W i < rows := by
      unfold end_row
      rw [if_neg (by omega)]
      have hsucc : W * rows_per_worker rows W
          = (W - 1) * rows_per_worker rows W + rows_per_worker rows W := by
        have h : (W - 1 + 1) * rows_per_worker rows W
            = (W - 1) * rows_per_worker rows W + rows_per_worker rows W :=
          Nat.succ_mul _ _
        have hW' : W - 1 + 1 = W := by omega
        rw [hW'] at h
        exact h
      have hle : (i + 1) * rows_per_worker rows W
          ≤ (W - 1) * rows_per_worker rows W :=
        Nat.mul_le_mul_right _ (by omega)
      have hcm : W * rows_per_worker rows W = rows_per_worker rows W * W :=
        Nat.mul_comm _ _
      omega
    unfold bottom_ghost_row
    rw [if_neg (by omega)]

/-- Witness for C5 at a concrete 3-row grid with 2 workers. -/
theorem C5_ghost_rows_witness :
    top_ghost_row [[1, 0], [0, 1], [1, 1]] 3 2 0 = [1, 1] ∧
    bottom_ghost_row [[1, 0], [0, 1], [1, 1]] 3 2 1 = [1, 0] := by
  have h := C5_ghost_rows [[1, 0], [0, 1], [1, 1]] 3 2 (by decide) (by decide)
  exact ⟨by rw [h.1]; rfl, by rw [h.2.1]; rfl⟩

/-- C7: for a cell state in \x7b0,1\x7d and neighbour count in 0..8,
apply_rules implements exactly the Conway rule table: alive survives
with 2 or 3 neighbours and dies otherwise; dead becomes alive exactly
with 3 neighbours. -/
theorem C7_apply_rules_table (s n : Nat) (hs : s = 0 ∨ s = 1) (hn : n ≤ 8) :
    (s = 1 →
      ((n < 2 ∨ n > 3) → apply_rules s n = DEAD) ∧
      ((n = 2 ∨ n = 3) → apply_rules s n = ALIVE)) ∧
    (s = 0 → (apply_rules s n = ALIVE ↔ n = 3)) := by
  rcases hs with h | h <;> subst h <;> interval_cases n <;> decide

/-- Witness for C7 at s = 1, n = 3. -/
theorem C7_apply_rules_table_witness : apply_rules 1 3 = ALIVE :=
  ((C7_apply_rules_table 1 3 (by decide) (by decide)).1 rfl).2 (by decide)

/-- C9: construction with R rows, W workers and R div W = 0 fails with the
fewer-rows-than-workers configuration error; with R div W >= 1 the
constructor validation succeeds (no socket is opened and no generation
runs inside the constructor). -/
theorem C9_init_validation (rows cols W : Nat)
    (hr : 0 < rows) (hc : 0 < cols) (hw : 0 < W) :
    (rows / W = 0 → distributed_init rows cols W = .error .tooFewRows) ∧
    (1 ≤ rows / W → distributed_init rows cols W = .ok (rows / W)) := by
  constructor
  · intro h
    unfold distributed_init
    rw [if_neg (by simp [hr, hc]), if_neg (by simp [hw]), if_pos h]
  · intro h
    have hWr : ¬ rows < W := by
      intro hlt
      rw [Nat.div_eq_of_lt hlt] at h
      omega
    unfold distributed_init
    rw [if_neg (by simp [hr, hc]), if_neg (by simp [hw]), if_neg (by omega),
      if_neg hWr]

/-- Witness for C9 at rows = 12, cols = 10, W = 5. -/
theorem C9_init_validation_witness : distributed_init 12 10 5 = .ok 2 :=
  (C9_init_validation 12 10 5 (by decide) (by decide) (by decide)).2 (by decide)

-- ### Message codec (common_utils.py)

/-- Message type tag CHNK (4 ASCII bytes). -/
def MSG_TYPE_CHUNK : List Nat := [67, 72, 78, 75]

/-- Message type tag UPDT (4 ASCII bytes). -/
def MSG_TYPE_UPDATE : List Nat := [85, 80, 68, 84]

/-- Message type tag STOP (4 ASCII bytes). -/
def MSG_TYPE_STOP : List Nat := [83, 84, 79, 80]

/-- Receive buffer cap used by the payload read loop. -/
def BUFFER_SIZE : Nat := 4096

/-- The payload values the system actually sends over the wire: None (for
STOP), a 2D integer array (for UPDATE), and the CHUNK dictionary of a
chunk plus two optional ghost rows. -/
inductive Payload where
  | pnone
  | arr (a : List (List Nat))
  | chunkDict (chunk : List (List Nat)) (top bottom : Option (List Nat))
deriving DecidableEq, Repr

/-- Row serialization: length prefix followed by the cells.  This models
the source's generic pickling of a row, which round-trips every list. -/
def encRow (r : List Nat) : List Nat := r.length :: r

/-- Serialize a list of rows back to back. -/
def encRows (a : List (List Nat)) : List Nat := (a.map encRow).flatten

/-- 2D-array serialization: row count followed by the serialized rows. -/
def encArr (a : List (List Nat)) : List Nat := a.length :: encRows a

/-- Optional-row serialization with a presence tag. -/
def encOptRow : Option (List Nat) → List Nat
  | none => [0]
  | some r => 1 :: encRow r

/-- pickle.dumps, modelled as a fixed-schema self-delimiting encoding of
the three payload shapes the system serializes. -/
def dumps : Payload → List Nat
  | .pnone => [0]
  | .arr a => 1 :: encArr a
  | .chunkDict c t b => 2 :: (encArr c ++ encOptRow t ++ encOptRow b)

/-- Parse one serialized row from the front of a stream. -/
def decRow : List Nat → Option (List Nat × List Nat)
  | [] => none
  | len :: rest =>
    if len ≤ rest.length then some (rest.take len, rest.drop len) else none

/-- Parse a given number of serialized rows from the front of a stream. -/
def decRows : Nat → List Nat → Option (List (List Nat) × List Nat)
  | 0, s => some ([], s)
  | n + 1, s =>
    match decRow s with
    | none => none
    | some (r, s1) =>
      match decRows n s1 with
      | none => none
      | some (rs, s2) => some (r :: rs, s2)

/-- Parse one serialized 2D array from the front of a stream. -/
def decArr : List Nat → Option (List (List Nat) × List Nat)
  | [] => none
  | n :: rest => decRows n rest

/-- Parse one serialized optional row from the front of a stream. -/
def decOptRow : List Nat → Option (Option (List Nat) × List Nat)
  | 0 :: rest => some (none, rest)
  | 1 :: rest =>
    match decRow rest with
    | none => none
    | some (r, s1) => some (some r, s1)
  | _ => none

/-- Parse one payload from the front of a stream. -/
def decPayload : List Nat → Option (Payload × List Nat)
  | 0 :: rest => some (.pnone, rest)
  | 1 :: rest =>
    match decArr rest with
    | none => none
    | some (a, s1) => some (.arr a, s1)
  | 2 :: rest =>
    match decArr rest with
    | none => none
    | some (c, s1) =>
      match decOptRow s1 with
      | none => none
      | some (t, s2) =>
        match decOptRow s2 with
        | none => none
        | some (b, s3) => some (.chunkDict c t b, s3)
  | _ => none

/-- pickle.loads: deserialize a complete buffer into a payload. -/
def loads (s : List Nat) : Option Payload :=
  match decPayload s with
  | some (p, []) => some p
  | _ => none

/-- Big-endian 4-byte unsigned encoding of the payload length
(struct.pack with format !4sI, length part). -/
def be32enc (n : Nat) : List Nat :=
  [n / 16777216 % 256, n / 65536 % 256, n / 256 % 256, n % 256]

/-- Big-endian 4-byte unsigned decoding (struct.unpack, length part). -/
def be32dec : List Nat → Nat
  | [a, b, c, d] => ((a * 256 + b) * 256 + c) * 256 + d
  | _ => 0

/-- A TCP byte stream as seen by one receiver: the bytes still to be
delivered, plus a fragmentation schedule chosen by the transport (how
many bytes each read call returns, at most). -/
structure Channel where
  data : List Nat
  frags : List Nat
deriving DecidableEq, Repr

/-- One blocking sock.recv(k): delivers between 1 and k of the remaining
bytes (the schedule chooses the fragment size), or the empty list exactly
when the peer has closed the stream and no bytes remain. -/
def sockRecv (ch : Channel) (k : Nat) : List Nat × Channel :=
  let f := match ch.frags with | [] => k | f :: _ => max f 1
  let n := min (min f k) ch.data.length
  (ch.data.take n, ⟨ch.data.drop n, ch.frags.tail⟩)

/-- Header read loop of recv_message: read in pieces until 8 header bytes
have arrived; an empty read (peer closed) aborts with none, which
recv_message maps to the closed sentinel. -/
def recvHeaderLoop (raw_header : List Nat) (ch : Channel) :
    Option (List Nat × Channel) :=
  if h : raw_header.length < 8 then
    let pr := sockRecv ch (8 - raw_header.length)
    if hp : pr.1.length = 0 then none
    else recvHeaderLoop (raw_header ++ pr.1) pr.2
  else some (raw_header, ch)
termination_by 8 - raw_header.length
decreasing_by
  simp only [List.length_append]
  have hp2 : (sockRecv ch (8 - raw_header.length)).1.length ≠ 0 := hp
  omega

/-- Payload read loop of recv_message: read up to BUFFER_SIZE bytes at a
time until msg_len bytes have arrived; an empty read aborts with none,
which recv_message maps to the broken-connection error. -/
def recvPayloadLoop (msg_len : Nat) (buf : List Nat) (ch : Channel) :
    Option (List Nat × Channel) :=
  if h : buf.length < msg_len then
    let pr := sockRecv ch (min (msg_len - buf.length) BUFFER_SIZE)
    if hp : pr.1.length = 0 then none
    else recvPayloadLoop msg_len (buf ++ pr.1) pr.2
  else some (buf, ch)
termination_by msg_len - buf.length
decreasing_by
  simp only [List.length_append]
  have hp2 : (sockRecv ch (min (msg_len - buf.length) BUFFER_SIZE)).1.length ≠ 0 := hp
  omega

/-- Possible outcomes of recv_message: the graceful-close sentinel
(None, None), a decoded message, the RuntimeError raised on a
connection broken mid-payload, and a deserialization failure. -/
inductive RecvResult where
  | closed
  | msg (msg_type : List Nat) (data : Payload)
  | broken
  | badData
deriving DecidableEq, Repr

/-- common_utils.recv_message over the channel model. -/
def recv_message (ch : Channel) : RecvResult × Channel :=
  match recvHeaderLoop [] ch with
  | none => (.closed, ch)
  | some (raw_header, ch1) =>
    let msg_type := raw_header.take 4
    let msg_len := be32dec (raw_header.drop 4)
    match recvPayloadLoop msg_len [] ch1 with
    | none => (.broken, ch1)
    | some (data_buffer, ch2) =>
      match loads data_buffer with
      | some d => (.msg msg_type d, ch2)
      | none => (.badData, ch2)

/-- common_utils.send_message: the byte stream written to the socket,
an 8-byte header (4-byte type tag, 4-byte big-endian length) followed
by the serialized payload. -/
def send_message (msg_type : List Nat) (data : Payload) : List Nat :=
  let pickled_data := dumps data
  let header := msg_type ++ be32enc pickled_data.length
  header ++ pickled_data

-- ### Codec round-trip lemmas

theorem decRow_encRow (r t : List Nat) : decRow (encRow r ++ t) = some (r, t) := by
  show decRow (r.length :: (r ++ t)) = some (r, t)
  simp only [decRow]
  rw [if_pos (by simp), List.take_left, List.drop_left]


theorem decRows_encRows (a : List (List Nat)) :
    ∀ t, decRows a.length (encRows a ++ t) = some (a, t) := by
  induction a with
  | nil => intro t; rfl
  | cons r a ih =>
    intro t
    have hflat : encRows (r :: a) = encRow r ++ encRows a := by
      simp [encRows]
    rw [show (r :: a).length = a.length + 1 from rfl, hflat, List.append_assoc]
    simp only [decRows, decRow_encRow, ih t]

theorem decArr_encArr (a : List (List Nat)) (t : List Nat) :
    decArr (encArr a ++ t) = some (a, t) := by
  show decArr (a.length :: (encRows a ++ t)) = some (a, t)
  unfold decArr
  exact decRows_encRows a t

theorem decOptRow_encOptRow (o : Option (List Nat)) (t : List Nat) :
    decOptRow (encOptRow o ++ t) = some (o, t) := by
  cases o with
  | none => rfl
  | some r =>
    show decOptRow (1 :: (encRow r ++ t)) = some (some r, t)
    simp only [decOptRow, decRow_encRow]

theorem decPayload_dumps (p : Payload) (t : List Nat) :
    decPayload (dumps p ++ t) = some (p, t) := by
  cases p with
  | pnone => rfl
  | arr a =>
    show decPayload (1 :: (encArr a ++ t)) = some (.arr a, t)
    simp only [decPayload, decArr_encArr]
  | chunkDict c tg bg =>
    show decPayload (2 :: ((encArr c ++ encOptRow tg ++ encOptRow bg) ++ t))
      = some (.chunkDict c tg bg, t)
    rw [List.append_assoc, List.append_assoc]
    simp only [decPayload, decArr_encArr, decOptRow_encOptRow]

theorem loads_dumps (p : Payload) : loads (dumps p) = some p := by
  unfold loads
  rw [show dumps p = dumps p ++ [] by simp, decPayload_dumps]

theorem be32_roundtrip (n : Nat) (h : n < 4294967296) :
    be32dec (be32enc n) = n := by
  simp only [be32enc, be32dec]
  omega

-- ### Receive loop lemmas

theorem sockRecv_spec (ch : Channel) (k : Nat) (hk : 1 ≤ k)
    (hd : 1 ≤ ch.data.length) :
    ∃ n0, 1 ≤ n0 ∧ n0 ≤ k ∧ n0 ≤ ch.data.length ∧
      sockRecv ch k
        = (ch.data.take n0, Channel.mk (ch.data.drop n0) ch.frags.tail) := by
  have hf : 1 ≤ (match ch.frags with | [] => k | f :: _ => max f 1) := by
    cases ch.frags with
    | nil => exact hk
    | cons f fr => exact le_max_right f 1
  exact ⟨min (min (match ch.frags with | [] => k | f :: _ => max f 1) k)
    ch.data.length, by omega, by omega, by omega, rfl⟩

theorem recvHeaderLoop_reads :
    ∀ n acc ch, n = 8 - List.length acc →
      8 - List.length acc ≤ (Channel.data ch).length →
      ∃ fr, recvHeaderLoop acc ch
        = some (acc ++ (Channel.data ch).take (8 - acc.length),
            Channel.mk ((Channel.data ch).drop (8 - acc.length)) fr) := by
  intro n
  induction n using Nat.strong_induction_on with
  | _ n ih =>
    intro acc ch hn hlen
    by_cases h : acc.length < 8
    · have hk : 1 ≤ 8 - acc.length := by omega
      have hd : 1 ≤ ch.data.length := by omega
      obtain ⟨n0, hn01, hn0k, hn0d, hsock⟩ := sockRecv_spec ch (8 - acc.length) hk hd
      have hlt : (ch.data.take n0).length = n0 := by
        rw [List.length_take]
        omega
      obtain ⟨fr, hrec⟩ := ih (8 - (acc.length + n0)) (by omega)
        (acc ++ ch.data.take n0) ⟨ch.data.drop n0, ch.frags.tail⟩
        (by simp only [List.length_append, hlt])
        (by simp only [List.length_append, hlt, List.length_drop]; omega)
      have hlen2 : (acc ++ ch.data.take n0).length = acc.length + n0 := by
        simp only [List.length_append, hlt]
      rw [hlen2] at hrec
      refine ⟨fr, ?_⟩
      rw [recvHeaderLoop]
      rw [dif_pos h]
      simp only [hsock, hlt]
      rw [dif_neg (by omega)]
      rw [hrec]
      have e1 : (acc ++ ch.data.take n0)
            ++ (ch.data.drop n0).take (8 - (acc.length + n0))
          = acc ++ ch.data.take (8 - acc.length) := by
        rw [List.append_assoc]
        congr 1
        rw [show 8 - acc.length = n0 + (8 - (acc.length + n0)) by omega,
          List.take_add]
      have e2 : (ch.data.drop n0).drop (8 - (acc.length + n0))
          = ch.data.drop (8 - acc.length) := by
        rw [List.drop_drop]
        congr 1
        omega
      rw [e1, e2]
    · refine ⟨ch.frags, ?_⟩
      rw [recvHeaderLoop]
      rw [dif_neg h]
      have hz : 8 - acc.length = 0 := by omega
      rw [hz]
      simp

theorem recvHeaderLoop_closed :
    ∀ n acc ch, n = 8 - List.length acc →
      List.length acc + (Channel.data ch).length < 8 →
      recvHeaderLoop acc ch = none := by
  intro n
  induction n using Nat.strong_induction_on with
  | _ n ih =>
    intro acc ch hn hshort
    have h : acc.length < 8 := by omega
    by_cases hdata : ch.data.length = 0
    · have hrecv : (sockRecv ch (8 - acc.length)).1.length = 0 := by
        simp [sockRecv, hdata]
      rw [recvHeaderLoop]
      rw [dif_pos h]
      rw [dif_pos hrecv]
    · have hk : 1 ≤ 8 - acc.length := by omega
      have hd : 1 ≤ ch.data.length := by omega
      obtain ⟨n0, hn01, hn0k, hn0d, hsock⟩ := sockRecv_spec ch (8 - acc.length) hk hd
      have hlt : (ch.data.take n0).length = n0 := by
        rw [List.length_take]
        omega
      have hrec := ih (8 - (acc.length + n0)) (by omega)
        (acc ++ ch.data.take n0) ⟨ch.data.drop n0, ch.frags.tail⟩
        (by simp only [List.length_append, hlt])
        (by simp only [List.length_append, hlt, List.length_drop]; omega)
      rw [recvHeaderLoop]
      rw [dif_pos h]
      simp only [hsock, hlt]
      rw [dif_neg (by omega)]
      exact hrec

theorem recvPayloadLoop_reads (msg_len : Nat) :
    ∀ n buf ch, n = msg_len - List.length buf →
      msg_len - List.length buf ≤ (Channel.data ch).length →
      ∃ fr, recvPayloadLoop msg_len buf ch
        = some (buf ++ (Channel.data ch).take (msg_len - buf.length),
            Channel.mk ((Channel.data ch).drop (msg_len - buf.length)) fr) := by
  intro n
  induction n using Nat.strong_induction_on with
  | _ n ih =>
    intro buf ch hn hlen
    by_cases h : buf.length < msg_len
    · have hk : 1 ≤ min (msg_len - buf.length) BUFFER_SIZE := by
        unfold BUFFER_SIZE
        omega
      have hd : 1 ≤ ch.data.length := by omega
      obtain ⟨n0, hn01, hn0k, hn0d, hsock⟩ :=
        sockRecv_spec ch (min (msg_len - buf.length) BUFFER_SIZE) hk hd
      have hn0m : n0 ≤ msg_len - buf.length := by
        have := min_le_left (msg_len - buf.length) BUFFER_SIZE
        omega
      have hlt : (ch.data.take n0).length = n0 := by
        rw [List.length_take]
        omega
      obtain ⟨fr, hrec⟩ := ih (msg_len - (buf.length + n0)) (by omega)
        (buf ++ ch.data.take n0) ⟨ch.data.drop n0, ch.frags.tail⟩
        (by simp only [List.length_append, hlt])
        (by simp only [List.length_append, hlt, List.length_drop]; omega)
      have hlen2 : (buf ++ ch.data.take n0).length = buf.length + n0 := by
        simp only [List.length_append, hlt]
      rw [hlen2] at hrec
      refine ⟨fr, ?_⟩
      rw [recvPayloadLoop]
      rw [dif_pos h]
      simp only [hsock, hlt]
      rw [dif_neg (by omega)]
      rw [hrec]
      have e1 : (buf ++ ch.data.take n0)
            ++ (ch.data.drop n0).take (msg_len - (buf.length + n0))
          = buf ++ ch.data.take (msg_len - buf.length) := by
        rw [List.append_assoc]
        congr 1
        rw [show msg_len - buf.length = n0 + (msg_len - (buf.length + n0)) by omega,
          List.take_add]
      have e2 : (ch.data.drop n0).drop (msg_len - (buf.length + n0))
          = ch.data.drop (msg_len - buf.length) := by
        rw [List.drop_drop]
        congr 1
        omega
      rw [e1, e2]
    · refine ⟨ch.frags, ?_⟩
      rw [recvPayloadLoop]
      rw [dif_neg h]
      have hz : msg_len - buf.length = 0 := by omega
      rw [hz]
      simp

theorem recvPayloadLoop_broken (msg_len : Nat) :
    ∀ n buf ch, n = msg_len - List.length buf →
      List.length buf + (Channel.data ch).length < msg_len →
      recvPayloadLoop msg_len buf ch = none := by
  intro n
  induction n using Nat.strong_induction_on with
  | _ n ih =>
    intro buf ch hn hshort
    have h : buf.length < msg_len := by omega
    by_cases hdata : ch.data.length = 0
    · have hrecv : (sockRecv ch (min (msg_len - buf.length) BUFFER_SIZE)).1.length = 0 := by
        simp [sockRecv, hdata]
      rw [recvPayloadLoop]
      rw [dif_pos h]
      rw [dif_pos hrecv]
    · have hk : 1 ≤ min (msg_len - buf.length) BUFFER_SIZE := by
        unfold BUFFER_SIZE
        omega
      have hd : 1 ≤ ch.data.length := by omega
      obtain ⟨n0, hn01, hn0k, hn0d, hsock⟩ :=
        sockRecv_spec ch (min (msg_len - buf.length) BUFFER_SIZE) hk hd
      have hlt : (ch.data.take n0).length = n0 := by
        rw [List.length_take]
        omega
      have hrec := ih (msg_len - (buf.length + n0)) (by omega)
        (buf ++ ch.data.take n0) ⟨ch.data.drop n0, ch.frags.tail⟩
        (by simp only [List.length_append, hlt])
        (by simp only [List.length_append, hlt, List.length_drop]; omega)
      rw [recvPayloadLoop]
      rw [dif_pos h]
      simp only [hsock, hlt]
      rw [dif_neg (by omega)]
      exact hrec

/-- C2: recv_message applied to the byte stream produced by send_message
for a 4-byte type tag T and any payload P returns exactly (T, P),
whatever fragment sizes the transport chooses for the individual reads. -/
theorem C2_codec_roundtrip (T : List Nat) (P : Payload) (frags : List Nat)
    (hT : T.length = 4) (hlen : (dumps P).length < 4294967296) :
    (recv_message (Channel.mk (send_message T P) frags)).1
      = RecvResult.msg T P := by
  have hbe : (be32enc (dumps P).length).length = 4 := rfl
  have h8 : (T ++ be32enc (dumps P).length).length = 8 := by
    simp [hT, hbe]
  have hstream : send_message T P
      = (T ++ be32enc (dumps P).length) ++ dumps P := rfl
  obtain ⟨fr, hhdr⟩ := recvHeaderLoop_reads 8 []
    (Channel.mk ((T ++ be32enc (dumps P).length) ++ dumps P) frags)
    (by simp)
    (by simp only [List.length_nil, List.length_append, h8]; omega)
  simp only [List.length_nil, Nat.sub_zero, List.nil_append] at hhdr
  rw [List.take_left' h8, List.drop_left' h8] at hhdr
  obtain ⟨fr2, hpay⟩ := recvPayloadLoop_reads (dumps P).length (dumps P).length
    [] (Channel.mk (dumps P) fr) (by simp) (by simp)
  simp only [List.length_nil, Nat.sub_zero, List.nil_append] at hpay
  rw [List.take_length (dumps P)] at hpay
  unfold recv_message
  rw [hstream, hhdr]
  simp only [List.take_left' hT, List.drop_left' hT, be32_roundtrip _ hlen,
    hpay, loads_dumps]

/-- Witness for C2: a concrete UPDT message with a 2 by 2 array payload,
delivered in fragments of sizes 3, 1, 5 and then whole pieces. -/
theorem C2_codec_roundtrip_witness :
    (recv_message (Channel.mk
        (send_message MSG_TYPE_UPDATE (Payload.arr [[1, 0], [0, 1]]))
        [3, 1, 5])).1
      = RecvResult.msg MSG_TYPE_UPDATE (Payload.arr [[1, 0], [0, 1]]) :=
  C2_codec_roundtrip MSG_TYPE_UPDATE (Payload.arr [[1, 0], [0, 1]]) [3, 1, 5]
    rfl (by decide)

/-- C3 counterexample: the peer closes after delivering only 4 of the 8
header bytes; recv_message returns the closed sentinel, not the
broken-connection error claimed by the specification. -/
theorem C3_counterexample :
    (recv_message (Channel.mk [67, 72, 78, 75] [])).1 = RecvResult.closed ∧
    (recv_message (Channel.mk [67, 72, 78, 75] [])).1 ≠ RecvResult.broken := by
  have h := recvHeaderLoop_closed 8 [] (Channel.mk [67, 72, 78, 75] [])
    (by simp) (by simp)
  unfold recv_message
  rw [h]
  exact ⟨rfl, by simp⟩

/-- C3 (amended): a close before the full 8-byte header arrives — whether
no bytes or only part of the header were delivered — yields the closed
sentinel; a close after the full header but before the complete payload
yields the ConnectionBroken error. -/
theorem C3_close_semantics (T : List Nat) (L : Nat)
    (partial_payload frags pre : List Nat)
    (hT : T.length = 4) (hL : L < 4294967296)
    (hpart : partial_payload.length < L) (hpre : pre.length < 8) :
    (recv_message (Channel.mk pre frags)).1 = RecvResult.closed ∧
    (recv_message (Channel.mk ((T ++ be32enc L) ++ partial_payload) frags)).1
      = RecvResult.broken := by
  constructor
  · have h := recvHeaderLoop_closed 8 [] (Channel.mk pre frags)
      (by simp) (by simpa using hpre)
    unfold recv_message
    rw [h]
  · have hbe : (be32enc L).length = 4 := rfl
    have h8 : (T ++ be32enc L).length = 8 := by simp [hT, hbe]
    obtain ⟨fr, hhdr⟩ := recvHeaderLoop_reads 8 []
      (Channel.mk ((T ++ be32enc L) ++ partial_payload) frags)
      (by simp)
      (by simp only [List.length_nil, List.length_append, h8]; omega)
    simp only [List.length_nil, Nat.sub_zero, List.nil_append] at hhdr
    rw [List.take_left' h8, List.drop_left' h8] at hhdr
    have hbrk := recvPayloadLoop_broken L L [] (Channel.mk partial_payload fr)
      (by simp) (by simpa using hpart)
    unfold recv_message
    rw [hhdr]
    simp only [List.take_left' hT, List.drop_left' hT, be32_roundtrip _ hL,
      hbrk]

/-- Witness for the amended C3: a full CHNK header announcing 5 payload
bytes followed by only 2 bytes before the close. -/
theorem C3_close_semantics_witness :
    (recv_message (Channel.mk (([67, 72, 78, 75] ++ be32enc 5) ++ [0, 0])
        [1])).1 = RecvResult.broken :=
  (C3_close_semantics [67, 72, 78, 75] 5 [0, 0] [1] [9, 9] rfl (by decide)
    (by decide) (by decide)).2

-- ### Worker receive loop (game_of_life_worker.py)

/-- Outcome of one iteration of the worker receive loop: send an UPDATE
and keep looping, keep looping without sending, or leave the loop
(after which the worker closes its socket and the process ends). -/
inductive WorkerOutcome where
  | sendAndContinue (reply_type : List Nat) (reply : Payload)
  | continueNoSend
  | exitLoop
deriving DecidableEq, Repr

/-- One iteration of GameOfLifeWorker.run, dispatching on the received
message.  A CHUNK with a well-formed chunk dictionary computes the next
state and sends it back as UPDATE; a CHUNK whose payload is not the
dictionary raises while indexing it and the catch-all handler leaves the
loop; STOP and the graceful-close sentinel leave the loop; broken
connections and undecodable payloads raise and leave the loop; any other
message type is only logged and the loop continues without a reply. -/
def worker_step (r : RecvResult) : WorkerOutcome :=
  match r with
  | .msg t d =>
    if t = MSG_TYPE_CHUNK then
      match d with
      | .chunkDict chunk top bottom =>
        .sendAndContinue MSG_TYPE_UPDATE
          (.arr (worker_compute chunk top bottom (chunk.headD []).length))
      | _ => .exitLoop
    else if t = MSG_TYPE_STOP then .exitLoop
    else .continueNoSend
  | .closed => .exitLoop
  | .broken => .exitLoop
  | .badData => .exitLoop

/-- C8 counterexample: on the reserved ACK type (neither CHUNK, STOP nor
the close sentinel) the worker does not leave its receive loop as the
specification claims; it logs and keeps looping. -/
theorem C8_counterexample :
    worker_step (RecvResult.msg [65, 67, 75, 32] Payload.pnone)
      = WorkerOutcome.continueNoSend ∧
    worker_step (RecvResult.msg [65, 67, 75, 32] Payload.pnone)
      ≠ WorkerOutcome.exitLoop := by
  constructor
  · rfl
  · decide

/-- C8 (amended): for every received message whose type is neither CHUNK
nor STOP (and which is not the graceful-close sentinel), the worker sends
nothing in response and stays in its receive loop: the unknown type is
only logged, the loop is not left and the connection is not closed in
response to it. -/
theorem C8_unknown_type_continues (t : List Nat) (d : Payload)
    (h1 : t ≠ MSG_TYPE_CHUNK) (h2 : t ≠ MSG_TYPE_STOP) :
    worker_step (RecvResult.msg t d) = WorkerOutcome.continueNoSend := by
  simp only [worker_step]
  rw [if_neg h1, if_neg h2]

/-- Witness for the amended C8 at an arbitrary unknown tag. -/
theorem C8_unknown_type_continues_witness :
    worker_step (RecvResult.msg [0, 0, 0, 0] Payload.pnone)
      = WorkerOutcome.continueNoSend :=
  C8_unknown_type_continues [0, 0, 0, 0] Payload.pnone (by decide) (by decide)

-- ### Binary cell invariant

/-- Every cell of every row of the grid is 0 or 1. -/
def grid_binary (g : List (List Nat)) : Prop :=
  ∀ row ∈ g, ∀ x ∈ row, x = 0 ∨ x = 1

theorem worker_compute_binary (chunk : List (List Nat))
    (top bottom : Option (List Nat)) (cols : Nat) :
    grid_binary (worker_compute chunk top bottom cols) := by
  intro row hrow x hx
  unfold worker_compute at hrow
  simp only [List.mem_map, List.mem_range] at hrow
  obtain ⟨r, _, rfl⟩ := hrow
  simp only [List.mem_map, List.mem_range] at hx
  obtain ⟨c, _, rfl⟩ := hx
  exact apply_rules_binary _ _

/-- C10: starting from a grid whose cells all lie in 0..1, the sequential
update, the thread-pool update and the distributed update (worker
computations merged in worker order) each produce a grid whose cells all
lie in 0..1, because apply_rules only ever returns DEAD or ALIVE. -/
theorem C10_updates_binary (g : List (List Nat)) (rows cols W T : Nat)
    (hg : grid_binary g) :
    grid_binary (seq_update g rows cols) ∧
    grid_binary (threads_update g rows cols T) ∧
    grid_binary (distributed_update g rows cols W) := by
  refine ⟨?_, ?_, ?_⟩
  · intro row hrow x hx
    unfold seq_update at hrow
    simp only [List.mem_map, List.mem_range] at hrow
    obtain ⟨r, _, rfl⟩ := hrow
    simp only [List.mem_map, List.mem_range] at hx
    obtain ⟨c, _, rfl⟩ := hx
    exact apply_rules_binary _ _
  · intro row hrow x hx
    unfold threads_update at hrow
    rw [List.mem_flatten] at hrow
    obtain ⟨blk, hblk, hrowblk⟩ := hrow
    simp only [List.mem_map, List.mem_range] at hblk
    obtain ⟨i, _, rfl⟩ := hblk
    simp only [List.mem_map, List.mem_range] at hrowblk
    obtain ⟨j, _, rfl⟩ := hrowblk
    simp only [List.mem_map, List.mem_range] at hx
    obtain ⟨c, _, rfl⟩ := hx
    exact apply_rules_binary _ _
  · intro row hrow x hx
    unfold distributed_update at hrow
    rw [List.mem_flatten] at hrow
    obtain ⟨blk, hblk, hrowblk⟩ := hrow
    simp only [List.mem_map, List.mem_range] at hblk
    obtain ⟨i, _, rfl⟩ := hblk
    exact worker_compute_binary _ _ _ _ row hrowblk x hx

/-- Witness for C10 on a concrete 2 by 2 grid with 2 workers, 2 threads. -/
theorem C10_updates_binary_witness :
    grid_binary (seq_update [[1, 0], [0, 1]] 2 2) :=
  (C10_updates_binary [[1, 0], [0, 1]] 2 2 2 2 (by unfold grid_binary; decide)).1

-- ### Coordinator barrier (game_of_life_distributed.py, C6)

/-- Events observable at the coordinator: a CHUNK message sent to a
worker, an UPDATE payload stored into a worker slot by its handler
thread, and the orchestration thread passing the barrier and merging. -/
inductive CoordEvent where
  | chunkSent (gen worker : Nat)
  | updateRecorded (gen worker : Nat)
  | merged (gen : Nat)
deriving DecidableEq, Repr

/-- Coordinator orchestration state: the generation being computed, how
many CHUNK messages of this generation have been sent so far, and the
per-worker result slots (current_generation_results). -/
structure CoordState where
  gen : Nat
  sent : Nat
  slots : List (Option (List (List Nat)))
deriving DecidableEq, Repr

/-- The wait_for predicate: all(res is not None for res in
current_generation_results). -/
def allFilled (slots : List (Option (List (List Nat)))) : Bool :=
  slots.all fun r => r.isSome

/-- Initial coordinator state: generation 0, nothing sent, all slots
None (as set up in __init__ and cleared at the start of each
_distribute_and_collect call). -/
def initCoord (W : Nat) : CoordState :=
  ⟨0, 0, List.replicate W none⟩

/-- Labelled transitions of the coordinator with its handler threads.
send: the distribution loop sends the next CHUNK of the current
generation.  deliver: a handler thread stores an UPDATE payload into its
slot under the results lock (a worker can only answer a chunk already
sent).  advance: the orchestration thread passes the wait_for barrier —
which requires every slot to be filled — merges the parts in worker
order, clears the slots and moves to the next generation. -/
inductive CoordStep (W : Nat) : CoordState → CoordEvent → CoordState → Prop where
  | send : ∀ g k slots, k < W →
      CoordStep W ⟨g, k, slots⟩ (.chunkSent g k) ⟨g, k + 1, slots⟩
  | deliver : ∀ g k slots i p, i < k →
      CoordStep W ⟨g, k, slots⟩ (.updateRecorded g i)
        ⟨g, k, slots.set i (some p)⟩
  | advance : ∀ g slots, allFilled slots = true →
      CoordStep W ⟨g, W, slots⟩ (.merged g)
        ⟨g + 1, 0, List.replicate W none⟩

/-- Reachability from a state with the accumulated event trace, oldest
event first. -/
inductive CoordReaches (W : Nat) :
    CoordState → List CoordEvent → CoordState → Prop where
  | refl : ∀ s, CoordReaches W s [] s
  | step : ∀ s1 tr s2 e s3, CoordReaches W s1 tr s2 → CoordStep W s2 e s3 →
      CoordReaches W s1 (tr ++ [e]) s3

theorem coordInv_of_reaches (W : Nat) (tr : List CoordEvent) (s : CoordState)
    (h : CoordReaches W (initCoord W) tr s) :
    s.slots.length = W ∧
    (∀ g i, g < s.gen → i < W → CoordEvent.updateRecorded g i ∈ tr) ∧
    (∀ i p, s.slots[i]? = some (some p) →
      CoordEvent.updateRecorded s.gen i ∈ tr) := by
  induction h with
  | refl =>
    refine ⟨List.length_replicate _ _, ?_, ?_⟩
    · intro g i hg _
      simp only [initCoord] at hg
      omega
    · intro i p hp
      simp only [initCoord] at hp
      rw [List.getElem?_replicate] at hp
      by_cases hi : i < W <;> simp [hi] at hp
  | step tr s2 e s3 hr hs ih =>
    obtain ⟨ihlen, ihgen, ihslot⟩ := ih
    cases hs with
    | send g k slots hk =>
      refine ⟨ihlen, ?_, ?_⟩
      · intro g2 i hg2 hi
        exact List.mem_append_left _ (ihgen g2 i hg2 hi)
      · intro i p hp
        exact List.mem_append_left _ (ihslot i p hp)
    | deliver g k slots i p hik =>
      refine ⟨by simpa using ihlen, ?_, ?_⟩
      · intro g2 j hg2 hj
        exact List.mem_append_left _ (ihgen g2 j hg2 hj)
      · intro j q hq
        by_cases hij : i = j
        · subst hij
          exact List.mem_append_right _ (by simp)
        · rw [List.getElem?_set_ne hij] at hq
          exact List.mem_append_left _ (ihslot j q hq)
    | advance g slots hfill =>
      refine ⟨List.length_replicate _ _, ?_, ?_⟩
      · intro g2 i hg2 hi
        by_cases hg2g : g2 < g
        · exact List.mem_append_left _ (ihgen g2 i hg2g hi)
        · have hg2eq : g2 = g := by
            simp only at hg2
            omega
          subst hg2eq
          have hi2 : i < slots.length := by
            simpa using ihlen ▸ hi
          obtain ⟨x, hx⟩ : ∃ x, slots[i]? = some x :=
            ⟨slots[i], List.getElem?_eq_getElem hi2⟩
          have hxmem : x ∈ slots := List.getElem?_mem hx
          have hxsome : x.isSome := by
            rw [allFilled, List.all_eq_true] at hfill
            exact hfill x hxmem
          obtain ⟨q, rfl⟩ := Option.isSome_iff_exists.mp hxsome
          exact List.mem_append_left _ (ihslot i q hx)
      · intro i p hp
        rw [List.getElem?_replicate] at hp
        by_cases hi : i < W <;> simp [hi] at hp

/-- C6: whenever the coordinator sends a CHUNK message of generation g
from a reachable state, every UPDATE payload of every earlier generation
N — in particular generation g-1 — from all W workers was recorded
earlier in the trace: the orchestration thread passes the
all-slots-filled barrier before the next distribution begins. -/
theorem C6_barrier_ordering (W N : Nat) (tr : List CoordEvent)
    (s2 s3 : CoordState) (g j : Nat)
    (hreach : CoordReaches W (initCoord W) tr s2)
    (hstep : CoordStep W s2 (CoordEvent.chunkSent g j) s3)
    (hN : N < g) :
    ∀ i, i < W → CoordEvent.updateRecorded N i ∈ tr := by
  intro i hi
  obtain ⟨-, hgen, -⟩ := coordInv_of_reaches W tr s2 hreach
  cases hstep with
  | send g k slots hk =>
    exact hgen N i (by simpa using hN) hi

/-- Witness for C6: a concrete two-generation run with one worker; the
generation-1 CHUNK is sent only after the generation-0 UPDATE was
recorded and the barrier passed. -/
theorem C6_barrier_ordering_witness :
    CoordEvent.updateRecorded 0 0 ∈
      [CoordEvent.chunkSent 0 0, CoordEvent.updateRecorded 0 0,
        CoordEvent.merged 0] := by
  have r0 : CoordReaches 1 (initCoord 1) [] (initCoord 1) :=
    CoordReaches.refl _
  have r1 : CoordReaches 1 (initCoord 1) ([] ++ [CoordEvent.chunkSent 0 0])
      ⟨0, 1, [none]⟩ :=
    CoordReaches.step _ _ _ _ _ r0 (CoordStep.send 0 0 [none] (by decide))
  have r2 : CoordReaches 1 (initCoord 1)
      (([] ++ [CoordEvent.chunkSent 0 0]) ++ [CoordEvent.updateRecorded 0 0])
      ⟨0, 1, [some []]⟩ :=
    CoordReaches.step _ _ _ _ _ r1
      (CoordStep.deliver 0 1 [none] 0 [] (by decide))
  have r3 : CoordReaches 1 (initCoord 1)
      ((([] ++ [CoordEvent.chunkSent 0 0]) ++ [CoordEvent.updateRecorded 0 0])
        ++ [CoordEvent.merged 0])
      ⟨1, 0, [none]⟩ :=
    CoordReaches.step _ _ _ _ _ r2 (CoordStep.advance 0 [some []] (by decide))
  have hstep : CoordStep 1 ⟨1, 0, [none]⟩ (CoordEvent.chunkSent 1 0)
      ⟨1, 1, [none]⟩ :=
    CoordStep.send 1 0 [none] (by decide)
  have h := C6_barrier_ordering 1 0
    [CoordEvent.chunkSent 0 0, CoordEvent.updateRecorded 0 0,
      CoordEvent.merged 0] ⟨1, 0, [none]⟩ ⟨1, 1, [none]⟩ 1 0 r3 hstep
    (by decide) 0 (by decide)
  exact h

-- ### Distributed refinement (C1)

theorem count_live_neighbors_eq_sum (g : List (List Nat)) (rows cols r c : Nat) :
    count_live_neighbors g rows cols r c =
      (getRow g (wrapIdx rows r (-1))).getD (wrapIdx cols c (-1)) 0 +
      (getRow g (wrapIdx rows r (-1))).getD (wrapIdx cols c 0) 0 +
      (getRow g (wrapIdx rows r (-1))).getD (wrapIdx cols c 1) 0 +
      (getRow g (wrapIdx rows r 0)).getD (wrapIdx cols c (-1)) 0 +
      (getRow g (wrapIdx rows r 0)).getD (wrapIdx cols c 1) 0 +
      (getRow g (wrapIdx rows r 1)).getD (wrapIdx cols c (-1)) 0 +
      (getRow g (wrapIdx rows r 1)).getD (wrapIdx cols c 0) 0 +
      (getRow g (wrapIdx rows r 1)).getD (wrapIdx cols c 1) 0 := by
  simp [count_live_neighbors, deltaList, getCell]

theorem count_congr (g1 g2 : List (List Nat)) (n1 n2 cols r1 r2 c : Nat)
    (hm : getRow g1 (wrapIdx n1 r1 (-1)) = getRow g2 (wrapIdx n2 r2 (-1)))
    (hz : getRow g1 (wrapIdx n1 r1 0) = getRow g2 (wrapIdx n2 r2 0))
    (hp : getRow g1 (wrapIdx n1 r1 1) = getRow g2 (wrapIdx n2 r2 1)) :
    count_live_neighbors g1 n1 cols r1 c
      = count_live_neighbors g2 n2 cols r2 c := by
  rw [count_live_neighbors_eq_sum, count_live_neighbors_eq_sum, hm, hz, hp]

theorem chunk_of_length (g : List (List Nat)) (rows W i : Nat)
    (hg : g.length = rows) (he : end_row rows W i ≤ rows)
    (hs : start_row rows W i ≤ end_row rows W i) :
    (chunk_of g rows W i).length
      = end_row rows W i - start_row rows W i := by
  unfold chunk_of
  rw [List.length_take, List.length_drop, hg]
  omega

theorem chunk_of_getRow (g : List (List Nat)) (rows W i j : Nat)
    (hj : j < end_row rows W i - start_row rows W i) :
    getRow (chunk_of g rows W i) j
      = getRow g (start_row rows W i + j) := by
  unfold getRow chunk_of
  rw [List.getD_eq_getElem?_getD, List.getD_eq_getElem?_getD,
    List.getElem?_take, if_pos hj, List.getElem?_drop]

theorem aug_getRow (g : List (List Nat)) (rows W i k : Nat)
    (hg : g.length = rows) (h2 : W ≤ rows) (hi : i < W)
    (hk : k ≤ end_row rows W i - start_row rows W i + 1) :
    getRow (top_ghost_row g rows W i ::
        (chunk_of g rows W i ++ [bottom_ghost_row g rows W i])) k
      = getRow g ((start_row rows W i + rows + k - 1) % rows) := by
  have hse : start_row rows W i < end_row rows W i := start_lt_end rows W i h2 hi
  have he : end_row rows W i ≤ rows := end_row_le rows W i hi
  have hrows : 0 < rows := by omega
  have hcl : (chunk_of g rows W i).length
      = end_row rows W i - start_row rows W i :=
    chunk_of_length g rows W i hg he (by omega)
  cases k with
  | zero =>
    have hhd : getRow (top_ghost_row g rows W i ::
        (chunk_of g rows W i ++ [bottom_ghost_row g rows W i])) 0
        = top_ghost_row g rows W i := by
      simp [getRow]
    rw [hhd]
    unfold top_ghost_row
    by_cases hs0 : start_row rows W i = 0
    · rw [if_pos hs0, hs0]
      congr 1
      rw [show 0 + rows + 0 - 1 = rows - 1 by omega,
        Nat.mod_eq_of_lt (by omega)]
    · rw [if_neg hs0]
      congr 1
      rw [show start_row rows W i + rows + 0 - 1
          = (start_row rows W i - 1) + rows by omega,
        Nat.add_mod_right, Nat.mod_eq_of_lt (by omega)]
  | succ j =>
    have htl : getRow (top_ghost_row g rows W i ::
        (chunk_of g rows W i ++ [bottom_ghost_row g rows W i])) (j + 1)
        = getRow (chunk_of g rows W i ++ [bottom_ghost_row g rows W i]) j := by
      simp [getRow]
    rw [htl]
    by_cases hj : j < end_row rows W i - start_row rows W i
    · have hin : getRow (chunk_of g rows W i ++ [bottom_ghost_row g rows W i]) j
          = getRow (chunk_of g rows W i) j := by
        unfold getRow
        rw [List.getD_eq_getElem?_getD, List.getD_eq_getElem?_getD,
          List.getElem?_append, if_pos (by rw [hcl]; omega)]
      rw [hin, chunk_of_getRow g rows W i j hj]
      congr 1
      rw [show start_row rows W i + rows + (j + 1) - 1
          = (start_row rows W i + j) + rows by omega,
        Nat.add_mod_right, Nat.mod_eq_of_lt (by omega)]
    · have hjm : j = end_row rows W i - start_row rows W i := by omega
      have hbot : getRow (chunk_of g rows W i ++ [bottom_ghost_row g rows W i]) j
          = bottom_ghost_row g rows W i := by
        unfold getRow
        rw [List.getD_eq_getElem?_getD,
          List.getElem?_append, if_neg (by rw [hcl]; omega)]
        rw [hcl, hjm]
        simp
      rw [hbot]
      unfold bottom_ghost_row
      by_cases hb : end_row rows W i = rows
      · rw [if_pos hb]
        congr 1
        rw [show start_row rows W i + rows + (j + 1) - 1 = rows + rows by omega,
          Nat.add_mod_right, Nat.mod_self]
      · rw [if_neg hb]
        congr 1
        rw [show start_row rows W i + rows + (j + 1) - 1
            = end_row rows W i + rows by omega,
          Nat.add_mod_right, Nat.mod_eq_of_lt (by omega)]

theorem worker_compute_some (chunk : List (List Nat)) (tg bg : List Nat)
    (cols : Nat) :
    worker_compute chunk (some tg) (some bg) cols
      = (List.range chunk.length).map fun r_chunk =>
          (List.range cols).map fun c =>
            apply_rules (getCell chunk r_chunk c)
              (count_live_neighbors (tg :: (chunk ++ [bg]))
                (chunk.length + 1 + 1) cols (r_chunk + 1) c) := by
  unfold worker_compute
  simp

theorem worker_compute_chunk_eq (g : List (List Nat)) (rows cols W i : Nat)
    (hg : g.length = rows) (h2 : W ≤ rows) (hi : i < W) :
    worker_compute (chunk_of g rows W i) (some (top_ghost_row g rows W i))
      (some (bottom_ghost_row g rows W i)) cols
    = (List.range (end_row rows W i - start_row rows W i)).map fun rc =>
        (List.range cols).map fun c =>
          apply_rules (getCell g (start_row rows W i + rc) c)
            (count_live_neighbors g rows cols (start_row rows W i + rc) c) := by
  have hse : start_row rows W i < end_row rows W i := start_lt_end rows W i h2 hi
  have he : end_row rows W i ≤ rows := end_row_le rows W i hi
  have hrows : 0 < rows := by omega
  have hcl : (chunk_of g rows W i).length
      = end_row rows W i - start_row rows W i :=
    chunk_of_length g rows W i hg he (by omega)
  rw [worker_compute_some, hcl]
  apply List.map_congr_left
  intro rc hrc
  rw [List.mem_range] at hrc
  apply List.map_congr_left
  intro c _
  have harg1 : getCell (chunk_of g rows W i) rc c
      = getCell g (start_row rows W i + rc) c := by
    simp only [getCell]
    rw [chunk_of_getRow g rows W i rc (by omega)]
  have harg2 : count_live_neighbors
      (top_ghost_row g rows W i ::
        (chunk_of g rows W i ++ [bottom_ghost_row g rows W i]))
      (end_row rows W i - start_row rows W i + 1 + 1) cols (rc + 1) c
      = count_live_neighbors g rows cols (start_row rows W i + rc) c := by
    apply count_congr
    · rw [wrapIdx_neg_one, wrapIdx_neg_one]
      rw [show rc + 1 + (end_row rows W i - start_row rows W i + 1 + 1) - 1
          = rc + (end_row rows W i - start_row rows W i + 1 + 1) by omega,
        Nat.add_mod_right, Nat.mod_eq_of_lt (by omega)]
      rw [aug_getRow g rows W i rc hg h2 hi (by omega)]
      congr 2
      omega
    · rw [wrapIdx_zero, wrapIdx_zero]
      rw [Nat.add_mod_right, Nat.mod_eq_of_lt (by omega)]
      rw [aug_getRow g rows W i (rc + 1) hg h2 hi (by omega)]
      congr 2
      omega
    · rw [wrapIdx_one, wrapIdx_one]
      rw [show rc + 1 + (end_row rows W i - start_row rows W i + 1 + 1) + 1
          = (rc + 2) + (end_row rows W i - start_row rows W i + 1 + 1) by omega,
        Nat.add_mod_right, Nat.mod_eq_of_lt (by omega)]
      rw [aug_getRow g rows W i (rc + 2) hg h2 hi (by omega)]
      congr 2
      omega
  rw [harg1, harg2]

theorem flatten_partition :
    ∀ (W : Nat) (F : Nat → List Nat) (rows rpw : Nat), 1 ≤ W → W * rpw ≤ rows →
      ((List.range W).map fun i =>
        (List.range ((if i = W - 1 then rows else (i + 1) * rpw) - i * rpw)).map
          fun rc => F (i * rpw + rc)).flatten
      = (List.range rows).map F := by
  intro W
  induction W with
  | zero => intro F rows rpw h1 h2; omega
  | succ W ih =>
    intro F rows rpw h1 h2
    by_cases hW : W = 0
    · subst hW
      rw [show List.range 1 = [0] from rfl, List.map_cons, List.map_nil,
        List.flatten_cons, List.flatten_nil, List.append_nil]
      norm_num
    · have hWpos : 1 ≤ W := by omega
      have hsucc : (W + 1) * rpw = W * rpw + rpw := Nat.succ_mul _ _
      have hrpw_le : rpw ≤ rows := by
        have hle : 1 * rpw ≤ (W + 1) * rpw := Nat.mul_le_mul_right _ (by omega)
        omega
      rw [List.range_succ_eq_map]
      rw [List.map_cons, List.map_map, List.flatten_cons]
      have hfirst : (List.range ((if 0 = W + 1 - 1 then rows else (0 + 1) * rpw)
          - 0 * rpw)).map (fun rc => F (0 * rpw + rc)) = (List.range rpw).map F := by
        rw [if_neg (by omega)]
        simp
      rw [hfirst]
      have hrest : (List.range W).map
          ((fun i => (List.range ((if i = W + 1 - 1 then rows else (i + 1) * rpw)
            - i * rpw)).map fun rc => F (i * rpw + rc)) ∘ Nat.succ)
          = (List.range W).map fun j =>
            (List.range ((if j = W - 1 then rows - rpw else (j + 1) * rpw)
              - j * rpw)).map
              fun rc => (fun x => F (rpw + x)) (j * rpw + rc) := by
        apply List.map_congr_left
        intro j hj
        rw [List.mem_range] at hj
        simp only [Function.comp, Nat.succ_eq_add_one]
        by_cases hjW : j = W - 1
        · rw [if_pos (by omega), if_pos hjW]
          have e2 : (j + 1) * rpw = j * rpw + rpw := Nat.succ_mul _ _
          have hsz : rows - (j + 1) * rpw = rows - rpw - j * rpw := by omega
          rw [hsz]
          apply List.map_congr_left
          intro rc _
          show F ((j + 1) * rpw + rc) = F (rpw + (j * rpw + rc))
          congr 1
          omega
        · have hj1 : ¬ (j + 1 = W + 1 - 1) := by omega
          rw [if_neg hj1, if_neg hjW]
          have e1 : (j + 1 + 1) * rpw = (j + 1) * rpw + rpw := Nat.succ_mul _ _
          have e2 : (j + 1) * rpw = j * rpw + rpw := Nat.succ_mul _ _
          have hsz : (j + 1 + 1) * rpw - (j + 1) * rpw
              = (j + 1) * rpw - j * rpw := by omega
          rw [hsz]
          apply List.map_congr_left
          intro rc _
          show F ((j + 1) * rpw + rc) = F (rpw + (j * rpw + rc))
          congr 1
          omega
      rw [hrest]
      rw [ih (fun x => F (rpw + x)) (rows - rpw) rpw hWpos (by omega)]
      conv_rhs => rw [show rows = rpw + (rows - rpw) by omega]
      rw [List.range_add, List.map_append, List.map_map]
      rfl

/-- C1: one distributed generation — the coordinator partitioning the grid
into W contiguous row chunks, sending each chunk with its two toroidal
ghost rows, every worker computing its next state with the shared rule
engine, and the coordinator concatenating the returned chunks in
worker-index order — equals one sequential update of the full toroidal
grid, for every grid of R rows by C columns with cells in 0..1 and every
worker count W with 1 <= W <= R. -/
theorem C1_distributed_eq_sequential (g : List (List Nat))
    (rows cols W : Nat) (hg : g.length = rows)
    (hrow : ∀ row ∈ g, row.length = cols) (hbin : grid_binary g)
    (h1 : 1 ≤ W) (h2 : W ≤ rows) :
    distributed_update g rows cols W = seq_update g rows cols := by
  have hmul : W * (rows / W) ≤ rows := by
    rw [Nat.mul_comm]
    exact Nat.div_mul_le_self rows W
  unfold distributed_update seq_update
  rw [List.map_congr_left fun i hi =>
    worker_compute_chunk_eq g rows cols W i hg h2 (List.mem_range.mp hi)]
  have hpart := flatten_partition W
    (fun r => (List.range cols).map fun c =>
      apply_rules (getCell g r c) (count_live_neighbors g rows cols r c))
    rows (rows / W) h1 hmul
  simp only [start_row, end_row, rows_per_worker]
  exact hpart

/-- Witness for C1: a 4 by 4 grid holding a stable 2 by 2 block, split
between 2 workers. -/
theorem C1_distributed_eq_sequential_witness :
    distributed_update
      [[0, 0, 0, 0], [0, 1, 1, 0], [0, 1, 1, 0], [0, 0, 0, 0]] 4 4 2
    = seq_update [[0, 0, 0, 0], [0, 1, 1, 0], [0, 1, 1, 0], [0, 0, 0, 0]] 4 4 :=
  C1_distributed_eq_sequential
    [[0, 0, 0, 0], [0, 1, 1, 0], [0, 1, 1, 0], [0, 0, 0, 0]] 4 4 2
    rfl (by decide) (by unfold grid_binary; decide) (by decide) (by decide)
